import Mathlib

/-!
Verification of the `ModelParametersUnified` parameter-representation and
basis-function engine of the dmpbbo function-approximator module
(`src/functionapproximators/FunctionApproximator.hpp`, which also carries the
`ModelParametersUnified.cpp` implementation).

Matrices are embedded as lists of rows over `ℚ` (exact arithmetic standing in
for `double`); an `n × 1` Eigen vector is a plain `List ℚ`.  The transcendental
`exp` (and the `atan2(·,1)` slope transform) are abstract parameters
`ℚ → ℚ`, so every theorem quantifies over them; the algorithms under study
never inspect their values.  Output to `cerr` is modelled as a boolean
"a message was logged" channel in the function result.
-/

/-- Segment `v.segment(off, len)` of a flat Eigen vector. -/
def sgm (v : List ℚ) (off len : Nat) : List ℚ :=
  (v.drop off).take len

/-- Dot product `row_a * row_b.transpose()` of two equally long rows. -/
def dotQ (a b : List ℚ) : ℚ :=
  (List.zipWith (fun x y => x * y) a b).sum

/-- Column `d` of a matrix stored as a list of rows (`M.col(d)`). -/
def colOf (M : List (List ℚ)) (d : Nat) : List ℚ :=
  M.map (fun r => r.getD d 0)

/-- Overwrite column `d` of `M` with the entries of `x` (`M.col(d) = x`). -/
def setColumn (M : List (List ℚ)) (d : Nat) (x : List ℚ) : List (List ℚ) :=
  List.zipWith (fun row xv => row.set d xv) M x

/-- Columns `d0, d0+1, …, d0+k-1` of `M` laid out one after the other. -/
def flattenColsFrom (M : List (List ℚ)) : Nat → Nat → List ℚ
  | _, 0 => []
  | d, k + 1 => colOf M d ++ flattenColsFrom M (d + 1) k

/-- The first `D` columns of `M` concatenated column by column; this is the
layout the `for (i_dim …) values.segment(…) = m.col(i_dim)` loops produce. -/
def flattenCols (M : List (List ℚ)) (D : Nat) : List ℚ :=
  flattenColsFrom M 0 D

/-- Width `M.cols()` of a rectangular matrix stored as a list of rows. -/
def matCols (M : List (List ℚ)) : Nat :=
  (M.headD []).length

/-- Number of entries `M.rows() * M.cols()` of a rectangular matrix. -/
def matSize (M : List (List ℚ)) : Nat :=
  M.length * matCols M

/-- Eigen's `v.maxCoeff()` of a (nonempty) column vector; `0` for the empty
vector, which the source never queries. -/
def maxCoeffL : List ℚ → ℚ
  | [] => 0
  | x :: xs => xs.foldl max x

/-- The state of a `ModelParametersUnified` object: the five parameter groups
and the three representation flags, exactly the fields serialized by the
source (minus the cache, which lives in `CState` below). -/
structure Model where
  centers : List (List ℚ)
  widths : List (List ℚ)
  slopes : List (List ℚ)
  offsets : List ℚ
  priors : List ℚ
  normalized_basis_functions : Bool
  lines_pivot_at_max_activation : Bool
  slopes_as_angles : Bool
deriving DecidableEq, Repr

/-- The shape assertions of `ModelParametersUnified::checkDimensions`:
centers/widths/slopes share an `n_basis × n_dims` shape and offsets/priors
are `n_basis × 1`. -/
def ModelValid (m : Model) : Prop :=
  (∀ r ∈ m.centers, r.length = matCols m.centers) ∧
  m.widths.length = m.centers.length ∧
  (∀ r ∈ m.widths, r.length = matCols m.centers) ∧
  m.slopes.length = m.centers.length ∧
  (∀ r ∈ m.slopes, r.length = matCols m.centers) ∧
  m.offsets.length = m.centers.length ∧
  m.priors.length = m.centers.length

instance (m : Model) : Decidable (ModelValid m) := by
  unfold ModelValid; infer_instance

/-- The `all_values_vector_size_` count computed at the end of `checkDimensions`:
the element counts of centers, widths, offsets, slopes and priors summed. -/
def allValuesSize (m : Model) : Nat :=
  matSize m.centers + matSize m.widths + m.offsets.length + matSize m.slopes +
    m.priors.length

/-- The four-matrix constructor
`ModelParametersUnified(centers, widths, slopes, offsets, normalized, pivot)`:
priors are initialized to all ones (`VectorXd::Ones(centers.rows(), …)`) and
`slopes_as_angles_` to `false`. -/
def mkModelUnified (centers widths slopes : List (List ℚ)) (offsets : List ℚ)
    (normalized pivot : Bool) : Model :=
  { centers := centers
    widths := widths
    slopes := slopes
    offsets := offsets
    priors := List.replicate centers.length 1
    normalized_basis_functions := normalized
    lines_pivot_at_max_activation := pivot
    slopes_as_angles := false }

/-- Source `ModelParametersUnified::clone`: rebuilds the model through the
four-matrix constructor, passing everything except the priors. -/
def clone (m : Model) : Model :=
  mkModelUnified m.centers m.widths m.slopes m.offsets
    m.normalized_basis_functions m.lines_pivot_at_max_activation

/-- Source `ModelParametersUnified::set_slopes_as_angles`: stores the flag, prints
"Not implemented yet!!!" to `cerr`, and forces the flag back to `false`.
The boolean in the result records that the message was logged. -/
def set_slopes_as_angles (m : Model) (v : Bool) : Model × Bool :=
  let m1 : Model := { m with slopes_as_angles := v }
  let m2 : Model := { m1 with slopes_as_angles := false }
  (m2, true)

/-- The correction `ac[i] = slopes_.row(i) * centers_.row(i).transpose()`, a per-line
slope·center correction computed in `set_lines_pivot_at_max_activation`
and in `getLines`. -/
def acVec (m : Model) : List ℚ :=
  List.zipWith dotQ m.slopes m.centers

/-- Source `ModelParametersUnified::set_lines_pivot_at_max_activation`: a no-op when
the flag does not change; otherwise the offsets are recomputed as
`offsets + ac` (origin to pivot) or `offsets - ac` (pivot to origin). -/
def set_lines_pivot_at_max_activation (m : Model) (flag : Bool) : Model :=
  if m.lines_pivot_at_max_activation = flag then m
  else
    let ac := acVec m
    let newOffsets :=
      if flag then List.zipWith (fun x y => x + y) m.offsets ac
      else List.zipWith (fun x y => x - y) m.offsets ac
    { m with offsets := newOffsets, lines_pivot_at_max_activation := flag }

/-- Source `ModelParametersUnified::getLines`: `lines = inputs*slopesᵀ + offsetsᵀ`
(entry `(s,b)` is `dot(inputs.row(s), slopes.row(b)) + offsets[b]`), and in
the pivot representation the `ac` correction is subtracted from each row. -/
def getLines (m : Model) (inputs : List (List ℚ)) : List (List ℚ) :=
  let lines0 :=
    inputs.map (fun x =>
      List.zipWith (fun srow b0 => dotQ x srow + b0) m.slopes m.offsets)
  if m.lines_pivot_at_max_activation then
    lines0.map (fun row => List.zipWith (fun x y => x - y) row (acVec m))
  else lines0

/-- One column-block write of `setParameterVectorAll`: for each dimension `d`
in the work list, compare the current column with the matching segment of
`values` (recording, like the `clearCache()` calls, whether any column
actually differed) and then overwrite the column with the segment. -/
def writeColsGo (v : List ℚ) (start B : Nat) :
    List Nat → List (List ℚ) × Bool → List (List ℚ) × Bool
  | [], acc => acc
  | d :: ds, acc =>
      let sg := sgm v (start + d * B) B
      writeColsGo v start B ds
        (setColumn acc.1 d sg, acc.2 || decide (¬ colOf acc.1 d = sg))

/-- A full `for (i_dim=0; i_dim<n_dims; …)` column-block write starting with
a clean "cache cleared" flag. -/
def writeCols (v : List ℚ) (start B D : Nat) (M : List (List ℚ)) :
    List (List ℚ) × Bool :=
  writeColsGo v start B (List.range D) (M, false)

/-- Result of `ModelParametersUnified::setParameterVectorAll`: the mutated
model, whether `clearCache()` was invoked, and whether the
"values is of wrong size" message was printed to `cerr`. -/
structure SetResult where
  model : Model
  clearedCache : Bool
  loggedSizeError : Bool
deriving DecidableEq, Repr

/-- Source `ModelParametersUnified::setParameterVectorAll`: on a size mismatch the
function prints to `cerr` and returns with nothing modified; otherwise it
writes centers and widths column blocks (clearing the activation cache only
when an incoming column differs elementwise from the stored one), then the
offsets segment and the slopes column block (never clearing the cache for
those).  `B = centers_.rows()` and `D = centers_.cols()` drive all segment
offsets, exactly as `size`/`n_dims` do in the source. -/
def setParameterVectorAll (m : Model) (v : List ℚ) : SetResult :=
  if v.length = allValuesSize m then
    let B := m.centers.length
    let D := matCols m.centers
    let rc := writeCols v 0 B D m.centers
    let rw := writeCols v (B * D) B D m.widths
    let newOffsets := sgm v (B * D + B * D) B
    let rs := writeCols v (B * D + B * D + B) B D m.slopes
    { model :=
        { m with
          centers := rc.1, widths := rw.1, offsets := newOffsets,
          slopes := rs.1 }
      clearedCache := rc.2 || rw.2
      loggedSizeError := false }
  else { model := m, clearedCache := false, loggedSizeError := true }

/-- The slopes as they are written to the flat vector by
`getParameterVectorAll`: mapped through `atan2(·, 1.0)` (the abstract
`arctan`) when `slopes_as_angles_` is set, raw otherwise. -/
def slopesRepr (arctan : ℚ → ℚ) (m : Model) : List (List ℚ) :=
  if m.slopes_as_angles then m.slopes.map (fun r => r.map (fun x => arctan x))
  else m.slopes

/-- The entries actually written by
`ModelParametersUnified::getParameterVectorAll`, in order: centers column
blocks, widths column blocks, offsets, slopes column blocks.  The priors are
never written even though the vector is resized to `allValuesSize`. -/
def getParameterVectorAllWritten (arctan : ℚ → ℚ) (m : Model) : List ℚ :=
  flattenCols m.centers (matCols m.centers) ++
    flattenCols m.widths (matCols m.widths) ++
    m.offsets ++
    flattenCols (slopesRepr arctan m) (matCols m.slopes)

/-- The full vector returned by `getParameterVectorAll`: the written prefix
followed by the trailing block `values.resize(getParameterVectorAllSize())`
allocated but never filled (its indeterminate contents are the `junk`
parameter). -/
def getParameterVectorAll (arctan : ℚ → ℚ) (m : Model) (junk : List ℚ) :
    List ℚ :=
  getParameterVectorAllWritten arctan m ++ junk

/-- Source `ModelParametersUnified::getSelectableParameters`, in insertion order. -/
def getSelectableParameters : List String :=
  [("centers"), ("widths"), ("offsets"), ("slopes"), ("priors")]

/-- One segment of the selection mask: `len` copies of `tag` if the owning
label was selected, `len` zeros otherwise. -/
def maskSeg (selected : Bool) (len : Nat) (tag : Int) : List Int :=
  List.replicate len (if selected then tag else 0)

/-- Source `ModelParametersUnified::getParameterVectorMask`: the mask is resized to
`getParameterVectorAllSize()` and zero-filled, then the four consecutive
segments for centers (tag 1), widths (2), offsets (3) and slopes (4) are
filled when their label is selected; the remaining tail (the priors slots)
keeps its zero fill. -/
def getParameterVectorMask (m : Model) (labels : List String) : List Int :=
  maskSeg (labels.contains ("centers")) (matSize m.centers) 1 ++
    maskSeg (labels.contains ("widths")) (matSize m.widths) 2 ++
    maskSeg (labels.contains ("offsets")) (m.offsets.length) 3 ++
    maskSeg (labels.contains ("slopes")) (matSize m.slopes) 4 ++
    List.replicate
      (allValuesSize m -
        (matSize m.centers + matSize m.widths + m.offsets.length +
          matSize m.slopes)) 0

/-- A small valid one-basis-function, one-dimensional model used as a
concrete evaluation point. -/
def mSmall : Model :=
  { centers := [[0]]
    widths := [[1]]
    slopes := [[0]]
    offsets := [0]
    priors := [1]
    normalized_basis_functions := false
    lines_pivot_at_max_activation := false
    slopes_as_angles := false }

/-- The three-basis-function model of the spec's concrete scenario:
centers 30/40/50, widths 5, slopes 1, offsets 0. -/
def mW : Model :=
  { centers := [[30], [40], [50]]
    widths := [[5], [5], [5]]
    slopes := [[1], [1], [1]]
    offsets := [0, 0, 0]
    priors := [1, 1, 1]
    normalized_basis_functions := false
    lines_pivot_at_max_activation := false
    slopes_as_angles := false }

/-- C10: clone does not preserve priors — `clone()` returns a model with the
same centers, widths, slopes, offsets, normalization flag and pivot flag as
the original, but whose priors vector is all ones regardless of the
original's priors. -/
theorem clone_resets_priors (m : Model) :
    (clone m).centers = m.centers ∧ (clone m).widths = m.widths ∧
      (clone m).slopes = m.slopes ∧ (clone m).offsets = m.offsets ∧
      (clone m).normalized_basis_functions = m.normalized_basis_functions ∧
      (clone m).lines_pivot_at_max_activation =
        m.lines_pivot_at_max_activation ∧
      (clone m).priors = List.replicate m.centers.length 1 :=
  ⟨rfl, rfl, rfl, rfl, rfl, rfl, rfl⟩

/-- C8 counterexample: requesting the slopes-as-angles representation on a
concrete model is not rejected with an error result — the call returns
normally with the flag reverted to `false` (the model is unchanged), the
only trace being the logged message. -/
theorem slopes_as_angles_counterexample :
    (set_slopes_as_angles mSmall true).1.slopes_as_angles = false ∧
      (set_slopes_as_angles mSmall true).1 = mSmall ∧
      (set_slopes_as_angles mSmall true).2 = true :=
  ⟨rfl, rfl, rfl⟩

/-- C8 (amended): `set_slopes_as_angles` always logs a not-implemented
message and leaves the model with the flag forced to `false`, whatever value
was requested; no error result is produced. -/
theorem slopes_as_angles_reverts (m : Model) (v : Bool) :
    set_slopes_as_angles m v = ({ m with slopes_as_angles := false }, true) :=
  rfl

/-- C2 counterexample: calling `setParameterVectorAll` with a wrong-size
vector on a concrete model does not fail with an explicit error result — it
returns normally with the model untouched and only the logged message
recording the mismatch. -/
theorem setAll_wrong_size_counterexample :
    setParameterVectorAll mSmall [] =
      { model := mSmall, clearedCache := false, loggedSizeError := true } := by
  decide

/-- C2 (amended): for every vector whose length differs from
`allValuesSize`, `setParameterVectorAll` is a silent logged no-op: it leaves
every parameter group and the activation cache unchanged and reports the
size mismatch only through the `cerr` log, not as an error result. -/
theorem setAll_wrong_size_silent_noop (m : Model) (v : List ℚ)
    (h : v.length ≠ allValuesSize m) :
    setParameterVectorAll m v =
      { model := m, clearedCache := false, loggedSizeError := true } := by
  unfold setParameterVectorAll
  exact if_neg h

/-- C2 witness: the amended statement evaluated at a concrete wrong-size
input. -/
theorem setAll_wrong_size_silent_noop_witness :
    ([(0 : ℚ)]).length ≠ allValuesSize mSmall ∧
      setParameterVectorAll mSmall [(0 : ℚ)] =
        { model := mSmall, clearedCache := false, loggedSizeError := true } :=
  ⟨by decide, setAll_wrong_size_silent_noop mSmall [(0 : ℚ)] (by decide)⟩

/-- C7: the flattening written by `getParameterVectorAll` covers only
centers, widths, offsets and slopes (4 entries for a 1-basis, 1-dim model),
while `getParameterVectorAllSize()` — `all_values_vector_size_` from
`checkDimensions` — also counts the priors (5 entries); the terminal
`assert(offset == getParameterVectorAllSize())` of `getParameterVectorAll`
and `getParameterVectorMask` therefore fails on every model.  The mask-side
offset is the same four-segment sum. -/
theorem flatten_size_assert_fails :
    (getParameterVectorAllWritten (fun q => q) mSmall).length = 4 ∧
      allValuesSize mSmall = 5 ∧
      matSize mSmall.centers + matSize mSmall.widths +
          mSmall.offsets.length + matSize mSmall.slopes = 4 ∧
      (getParameterVectorMask mSmall getSelectableParameters).length = 5 := by
  refine ⟨rfl, rfl, rfl, ?_⟩
  decide

/-- Adding then subtracting the same correction vector elementwise is the
identity on an equally long offsets vector. -/
lemma zipWith_add_sub_cancel :
    ∀ (o a : List ℚ), o.length = a.length →
      List.zipWith (fun x y => x - y)
        (List.zipWith (fun x y => x + y) o a) a = o
  | [], [], _ => rfl
  | [], _ :: _, h => by simp at h
  | _ :: _, [], h => by simp at h
  | o0 :: o, a0 :: a, h => by
      simp only [List.zipWith]
      refine congrArg₂ (· :: ·) (by ring) ?_
      exact zipWith_add_sub_cancel o a (by simpa using h)

/-- Evaluating the origin-form lines on offsets shifted by `ac` and then
subtracting `ac` gives the plain origin-form lines: this is the
origin-to-pivot direction of the reparameterization, one input row at a
time. -/
lemma lines_row_pivot_of_origin (g : List ℚ → ℚ) :
    ∀ (s : List (List ℚ)) (o a : List ℚ), o.length = a.length →
      List.zipWith (fun x y => x - y)
        (List.zipWith (fun srow b0 => g srow + b0) s
          (List.zipWith (fun x y => x + y) o a)) a
        = List.zipWith (fun srow b0 => g srow + b0) s o
  | [], _, _, _ => by simp
  | _ :: _, [], [], _ => rfl
  | _ :: _, [], _ :: _, h => by simp at h
  | _ :: _, _ :: _, [], h => by simp at h
  | s0 :: s, o0 :: o, a0 :: a, h => by
      simp only [List.zipWith]
      refine congrArg₂ (· :: ·) (by ring) ?_
      exact lines_row_pivot_of_origin g s o a (by simpa using h)

/-- Evaluating the origin-form lines on offsets shifted down by `ac` equals
the pivot-form evaluation (origin-form minus `ac`) on the original offsets:
the pivot-to-origin direction of the reparameterization, one input row at a
time. -/
lemma lines_row_origin_of_pivot (g : List ℚ → ℚ) :
    ∀ (s : List (List ℚ)) (o a : List ℚ), o.length = a.length →
      List.zipWith (fun srow b0 => g srow + b0) s
        (List.zipWith (fun x y => x - y) o a)
        = List.zipWith (fun x y => x - y)
            (List.zipWith (fun srow b0 => g srow + b0) s o) a
  | [], _, _, _ => by simp
  | _ :: _, [], [], _ => rfl
  | _ :: _, [], _ :: _, h => by simp at h
  | _ :: _, _ :: _, [], h => by simp at h
  | s0 :: s, o0 :: o, a0 :: a, h => by
      simp only [List.zipWith]
      refine congrArg₂ (· :: ·) (by ring) ?_
      exact lines_row_origin_of_pivot g s o a (by simpa using h)

/-- For a valid model the correction vector `ac` has one entry per line,
matching the offsets vector. -/
lemma acVec_length (m : Model) (hv : ModelValid m) :
    m.offsets.length = (acVec m).length := by
  obtain ⟨-, -, -, hs, -, ho, -⟩ := hv
  simp [acVec, ho, hs]

/-- C1: toggling the pivot representation is a lossless reparameterization —
`set_lines_pivot_at_max_activation(flag)` is a no-op when `flag` equals the
current flag; on an actual change the offsets become `offsets + ac`
(origin to pivot) or `offsets - ac` (pivot to origin) with
`ac[b] = dot(slope[b,:], center[b,:])`; `getLines` yields identical values
for every input matrix before and after any toggle; and toggling to `true`
then back to `false` reproduces the original model exactly. -/
theorem pivot_toggle_lossless (m : Model) (hv : ModelValid m) :
    (∀ fl, m.lines_pivot_at_max_activation = fl →
        set_lines_pivot_at_max_activation m fl = m) ∧
      (m.lines_pivot_at_max_activation = false →
        (set_lines_pivot_at_max_activation m true).offsets =
          List.zipWith (fun x y => x + y) m.offsets (acVec m)) ∧
      (m.lines_pivot_at_max_activation = true →
        (set_lines_pivot_at_max_activation m false).offsets =
          List.zipWith (fun x y => x - y) m.offsets (acVec m)) ∧
      (∀ fl inputs,
        getLines (set_lines_pivot_at_max_activation m fl) inputs =
          getLines m inputs) ∧
      (m.lines_pivot_at_max_activation = false →
        set_lines_pivot_at_max_activation
          (set_lines_pivot_at_max_activation m true) false = m) := by
  have ho := acVec_length m hv
  refine ⟨?_, ?_, ?_, ?_, ?_⟩
  · intro fl h
    simp [set_lines_pivot_at_max_activation, h]
  · intro h
    simp [set_lines_pivot_at_max_activation, h]
  · intro h
    simp [set_lines_pivot_at_max_activation, h]
  · intro fl inputs
    by_cases h : m.lines_pivot_at_max_activation = fl
    · simp [set_lines_pivot_at_max_activation, h]
    · cases fl with
      | true =>
          have hm : m.lines_pivot_at_max_activation = false := by
            revert h; cases m.lines_pivot_at_max_activation <;> simp
          simp only [set_lines_pivot_at_max_activation, if_neg h, hm,
            if_pos rfl]
          simp only [getLines, hm]
          simp only [if_pos rfl, if_neg (by simp : ¬ (false = true)),
            List.map_map]
          refine List.map_congr_left (fun x _ => ?_)
          simpa [acVec] using
            lines_row_pivot_of_origin (fun srow => dotQ x srow)
              m.slopes m.offsets (acVec m) ho
      | false =>
          have hm : m.lines_pivot_at_max_activation = true := by
            revert h; cases m.lines_pivot_at_max_activation <;> simp
          simp only [set_lines_pivot_at_max_activation, if_neg h, hm]
          simp only [getLines, hm]
          simp only [if_pos rfl, if_neg (by simp : ¬ (false = true)),
            List.map_map]
          refine List.map_congr_left (fun x _ => ?_)
          simpa [acVec] using
            lines_row_origin_of_pivot (fun srow => dotQ x srow)
              m.slopes m.offsets (acVec m) ho
  · intro h
    have h1 : set_lines_pivot_at_max_activation m true =
        { m with
          offsets := List.zipWith (fun x y => x + y) m.offsets (acVec m),
          lines_pivot_at_max_activation := true } := by
      simp [set_lines_pivot_at_max_activation, h]
    rw [h1]
    have hac :
        acVec { m with
          offsets := List.zipWith (fun x y => x + y) m.offsets (acVec m),
          lines_pivot_at_max_activation := true } = acVec m := rfl
    simp only [set_lines_pivot_at_max_activation, hac]
    rw [if_neg (by simp)]
    simp only [if_neg (by simp : ¬ (false = true))]
    have := zipWith_add_sub_cancel m.offsets (acVec m) ho
    simp only [this]
    cases m with
    | mk c w s o p nb lp sa => simp_all

/-- C1 witness: the pivot toggle on the spec's concrete three-line model
leaves the line values at input 40 unchanged. -/
theorem pivot_toggle_lossless_witness :
    ModelValid mW ∧
      getLines (set_lines_pivot_at_max_activation mW true) [[40]] =
        getLines mW [[40]] :=
  ⟨by decide, (pivot_toggle_lossless mW (by decide)).2.2.2.1 true [[40]]⟩

/-- Reading a list of zeros (or past its end) with default 0 yields 0. -/
lemma getD_replicate_zero : ∀ (n k : Nat), (List.replicate n (0 : Int)).getD k 0 = 0
  | 0, _ => rfl
  | _ + 1, 0 => rfl
  | n + 1, k + 1 => getD_replicate_zero n k

/-- Reading an append past the first part reads the second part. -/
lemma getD_append_ge : ∀ (a b : List Int) (i : Nat), a.length ≤ i →
    (a ++ b).getD i 0 = b.getD (i - a.length) 0
  | [], _, _, _ => by simp
  | _ :: _, _, 0, h => by simp at h
  | x :: a, b, i + 1, h => by
      simpa using getD_append_ge a b i (by simpa using h)

/-- C9: the label "priors" is selectable but never maskable —
`getSelectableParameters` returns exactly the five labels, yet the mask built
by `getParameterVectorMask` tags only the centers/widths/offsets/slopes
segments: for the selection `{"priors"}` the mask is identically zero, and
for every selection every mask entry beyond the four tagged segments (the
priors slots) is zero. -/
theorem priors_never_maskable (m : Model) :
    getSelectableParameters =
        [("centers"), ("widths"), ("offsets"), ("slopes"), ("priors")] ∧
      getParameterVectorMask m [("priors")] =
        List.replicate (allValuesSize m) 0 ∧
      (∀ (labels : List String) (i : Nat),
        matSize m.centers + matSize m.widths + m.offsets.length +
            matSize m.slopes ≤ i →
        (getParameterVectorMask m labels).getD i 0 = 0) := by
  refine ⟨rfl, ?_, ?_⟩
  · have h1 : ([("priors")] : List String).contains ("centers") = false := by
      decide
    have h2 : ([("priors")] : List String).contains ("widths") = false := by
      decide
    have h3 : ([("priors")] : List String).contains ("offsets") = false := by
      decide
    have h4 : ([("priors")] : List String).contains ("slopes") = false := by
      decide
    simp only [getParameterVectorMask, maskSeg, h1, h2, h3, h4,
      Bool.false_eq_true, if_neg (by simp : ¬ False), if_false,
      ← List.replicate_add]
    refine congrArg₂ List.replicate ?_ rfl
    unfold allValuesSize
    omega
  · intro labels i hi
    unfold getParameterVectorMask
    have lseg : ∀ (b : Bool) (len : Nat) (t : Int),
        (maskSeg b len t).length = len := by
      intro b len t; simp [maskSeg]
    rw [List.append_assoc, List.append_assoc, List.append_assoc]
    rw [getD_append_ge _ _ _ (by rw [lseg]; omega)]
    rw [getD_append_ge _ _ _ (by rw [lseg, lseg]; omega)]
    rw [getD_append_ge _ _ _ (by rw [lseg, lseg, lseg]; omega)]
    rw [getD_append_ge _ _ _ (by rw [lseg, lseg, lseg, lseg]; omega)]
    exact getD_replicate_zero _ _

/-- C9 witness: on the concrete three-line model the selectable set, the
all-zero priors mask, and a zero entry in a priors slot of a mask with
centers selected. -/
theorem priors_never_maskable_witness :
    (matSize mW.centers + matSize mW.widths + mW.offsets.length +
        matSize mW.slopes ≤ 12) ∧
      (getParameterVectorMask mW [("centers")]).getD 12 0 = 0 :=
  ⟨by decide, (priors_never_maskable mW).2.2 [("centers")] 12 (by decide)⟩

/-- The incremental per-dimension product of
`kernel_activations(i_s,bb) *= exp(-0.5*pow(x-c,2)/(w*w))` for one sample row
and one basis function, starting from the `fill(1.0)`.  `e` is the abstract
exponential. -/
def gaussAct (e : ℚ → ℚ) (center width xrow : List ℚ) (D : Nat) : ℚ :=
  (List.range D).foldl
    (fun acc d =>
      acc *
        e (-(1 / 2) * (xrow.getD d 0 - center.getD d 0) ^ 2 /
            (width.getD d 0 * width.getD d 0))) 1

/-- The unnormalized activation matrix: entry `(s, b)` is the per-dimension
Gaussian product for sample `s` and basis function `b`; the dimension count
is `centers.cols()` as in the static `kernelActivations`. -/
def kernelActivationsUnnormalized (e : ℚ → ℚ)
    (centers widths inputs : List (List ℚ)) : List (List ℚ) :=
  inputs.map (fun x =>
    List.zipWith (fun cr wr => gaussAct e cr wr x (matCols centers))
      centers widths)

/-- The static
`ModelParametersUnified::kernelActivations(centers, widths, inputs, out,
normalized)`: with normalization and a single basis function the output is
filled with ones; otherwise the unnormalized activations are computed and,
when normalization is requested, every row is divided by its row sum, with
`maxCoeff/100000` first added to all row sums if any of them is exactly
zero. -/
def kernelActivationsStatic (e : ℚ → ℚ)
    (centers widths inputs : List (List ℚ)) (normalized : Bool) :
    List (List ℚ) :=
  if normalized ∧ centers.length = 1 then
    List.replicate inputs.length (List.replicate centers.length 1)
  else
    let acts := kernelActivationsUnnormalized e centers widths inputs
    if normalized then
      let sums := acts.map (fun r => r.sum)
      let sums2 :=
        if sums.any (fun x => decide (x = 0)) then
          sums.map (fun x => x + maxCoeffL sums / 100000)
        else sums
      List.zipWith (fun row s => row.map (fun a => a / s)) acts sums2
    else acts

/-- The stabilization term the normalization adds to every row sum:
`maxCoeff/100000` when some row sum is exactly zero, `0` otherwise. -/
def sumFix (e : ℚ → ℚ) (centers widths inputs : List (List ℚ)) : ℚ :=
  let sums :=
    (kernelActivationsUnnormalized e centers widths inputs).map
      (fun r => r.sum)
  if sums.any (fun x => decide (x = 0)) then maxCoeffL sums / 100000 else 0

/-- A left fold of multiplications starting at 1 is the product of the
mapped list. -/
lemma foldl_mul_eq_prod (f : Nat → ℚ) (l : List Nat) :
    (l.foldl (fun acc d => acc * f d) 1) = (l.map f).prod := by
  rw [List.prod_eq_foldl, List.foldl_map]

/-- C5: for every input matrix and valid centers/widths pair with strictly
positive widths, the unnormalized activation of sample `s` and basis
function `b` equals the product over dimensions `d` of
`exp(-0.5*(x[s,d]-center[b,d])^2 / width[b,d]^2)`. -/
theorem kernel_activation_product (e : ℚ → ℚ)
    (centers widths inputs : List (List ℚ))
    (hlen : widths.length = centers.length)
    (hwpos : ∀ r ∈ widths, ∀ x ∈ r, 0 < x)
    (s b : Nat) (hs : s < inputs.length) (hb : b < centers.length) :
    ((kernelActivationsStatic e centers widths inputs false).getD s []).getD
        b 0 =
      ((List.range (matCols centers)).map (fun d =>
          e (-(1 / 2) *
              ((inputs.getD s []).getD d 0 -
                (centers.getD b []).getD d 0) ^ 2 /
              ((widths.getD b []).getD d 0 * (widths.getD b []).getD d 0)))).prod := by
  have hstatic : kernelActivationsStatic e centers widths inputs false =
      kernelActivationsUnnormalized e centers widths inputs := by
    unfold kernelActivationsStatic
    rw [if_neg (by simp)]
    simp
  rw [hstatic]
  unfold kernelActivationsUnnormalized
  rw [List.getD_eq_getElem _ [] (by simpa using hs), List.getElem_map]
  have hb' : b < (List.zipWith
      (fun cr wr => gaussAct e cr wr inputs[s] (matCols centers))
      centers widths).length := by
    simp [hlen]; omega
  rw [List.getD_eq_getElem _ 0 hb', List.getElem_zipWith]
  rw [gaussAct, foldl_mul_eq_prod]
  rw [List.getD_eq_getElem inputs [] hs,
    List.getD_eq_getElem centers [] hb,
    List.getD_eq_getElem widths [] (by omega)]

/-- C5 witness: the product formula evaluated on the concrete three-line
model at input 40 with the abstract exponential instantiated by the
identity. -/
theorem kernel_activation_product_witness :
    mW.widths.length = mW.centers.length ∧
      (∀ r ∈ mW.widths, ∀ x ∈ r, 0 < x) ∧
      ((kernelActivationsStatic (fun q => q) mW.centers mW.widths [[40]]
            false).getD 0 []).getD 1 0 =
        ((List.range (matCols mW.centers)).map (fun d =>
            (fun q => q)
              (-(1 / 2) *
                (([([(40 : ℚ)])].getD 0 []).getD d 0 -
                  (mW.centers.getD 1 []).getD d 0) ^ 2 /
                ((mW.widths.getD 1 []).getD d 0 *
                  (mW.widths.getD 1 []).getD d 0)))).prod :=
  ⟨by decide, by decide,
    kernel_activation_product (fun q => q) mW.centers mW.widths [[40]]
      (by decide) (by decide) 0 1 (by decide) (by decide)⟩


/-- Dividing a row elementwise commutes with reading an entry (with default
0, since `0 / s = 0` in exact arithmetic). -/
lemma getD_map_div (row : List ℚ) (sv : ℚ) (b : Nat) :
    (row.map (fun a => a / sv)).getD b 0 = row.getD b 0 / sv := by
  rcases Nat.lt_or_ge b row.length with h | h
  · rw [List.getD_eq_getElem _ 0 (by simpa using h), List.getElem_map,
      List.getD_eq_getElem _ 0 h]
  · rw [List.getD_eq_default _ 0 (by simpa using h),
      List.getD_eq_default _ 0 h, zero_div]

/-- Adding a constant to every row sum commutes with reading an in-bounds
entry. -/
lemma getD_map_add (l : List ℚ) (c : ℚ) (s : Nat) (hs : s < l.length) :
    (l.map (fun x => x + c)).getD s 0 = l.getD s 0 + c := by
  rw [List.getD_eq_getElem _ 0 (by simpa using hs), List.getElem_map,
    List.getD_eq_getElem _ 0 hs]

/-- Entry `(s, b)` of the rowwise division of `acts` by the vector `sums2`. -/
lemma getD_zipWith_div :
    ∀ (acts : List (List ℚ)) (sums2 : List ℚ) (s b : Nat),
      s < acts.length → acts.length ≤ sums2.length →
      ((List.zipWith (fun row sv => row.map (fun a => a / sv)) acts
            sums2).getD s []).getD b 0 =
        (acts.getD s []).getD b 0 / sums2.getD s 0
  | [], _, s, _, hs, _ => by simp at hs
  | _ :: _, [], _, _, _, hlen => by simp at hlen
  | r :: acts, sv :: sums2, 0, b, _, _ => by
      simpa using getD_map_div r sv b
  | r :: acts, sv :: sums2, s + 1, b, hs, hlen => by
      simpa using getD_zipWith_div acts sums2 s b (by simpa using hs)
        (by simpa using hlen)

/-- Under nonnegative activations and a positive maximal row sum, every
row-sum denominator of the normalization (row sum plus the conditional
`maxCoeff/100000` shift) is positive. -/
lemma rowsum_denominator_pos (U : List (List ℚ))
    (hU : ∀ r ∈ U, ∀ a ∈ r, 0 ≤ a)
    (hmax : 0 < maxCoeffL (U.map (fun r => r.sum)))
    (s : Nat) (hs : s < U.length) :
    0 < (U.map (fun r => r.sum)).getD s 0 +
        (if (U.map (fun r => r.sum)).any (fun x => decide (x = 0)) then
          maxCoeffL (U.map (fun r => r.sum)) / 100000
        else 0) := by
  have hss : s < (U.map (fun r => r.sum)).length := by simpa using hs
  have hsval : (U.map (fun r => r.sum)).getD s 0 = U[s].sum := by
    rw [List.getD_eq_getElem _ 0 hss, List.getElem_map]
  have hnn : 0 ≤ (U.map (fun r => r.sum)).getD s 0 := by
    rw [hsval]
    exact List.sum_nonneg (fun x hx => hU U[s] (List.getElem_mem hs) x hx)
  by_cases hz : (U.map (fun r => r.sum)).any (fun x => decide (x = 0)) = true
  · rw [if_pos hz]
    have : (0 : ℚ) < maxCoeffL (U.map (fun r => r.sum)) / 100000 :=
      div_pos hmax (by norm_num)
    linarith
  · rw [if_neg hz, add_zero]
    have hne : (U.map (fun r => r.sum)).getD s 0 ≠ 0 := by
      intro h0
      apply hz
      rw [List.any_eq_true]
      refine ⟨(U.map (fun r => r.sum)).getD s 0, ?_, by simpa using h0⟩
      rw [List.getD_eq_getElem _ 0 hss]
      exact List.getElem_mem hss
    exact lt_of_le_of_ne hnn (Ne.symm hne)

/-- C4: normalized-activation policy — when normalized basis functions are
requested, a single basis function yields the all-ones output; otherwise
each entry is the unnormalized activation divided by its row sum plus the
stabilization term (`maxCoeff/100000` added to all row sums exactly when
some row sum is zero); and whenever the unnormalized activations are
nonnegative with a positive maximal row sum — as holds for a genuine
exponential — every normalization denominator is positive, the
exact-arithmetic reading of "no output entry is NaN or Inf". -/
theorem normalized_activation_policy (e : ℚ → ℚ)
    (centers widths inputs : List (List ℚ))
    (hlen : widths.length = centers.length) :
    (centers.length = 1 →
        kernelActivationsStatic e centers widths inputs true =
          List.replicate inputs.length (List.replicate centers.length 1)) ∧
      (centers.length ≠ 1 → ∀ s b, s < inputs.length → b < centers.length →
        ((kernelActivationsStatic e centers widths inputs true).getD s
              []).getD b 0 =
          ((kernelActivationsUnnormalized e centers widths inputs).getD s
                []).getD b 0 /
            (((kernelActivationsUnnormalized e centers widths inputs).map
                  (fun r => r.sum)).getD s 0 +
              sumFix e centers widths inputs)) ∧
      ((∀ r ∈ kernelActivationsUnnormalized e centers widths inputs,
          ∀ a ∈ r, 0 ≤ a) →
        0 < maxCoeffL
            ((kernelActivationsUnnormalized e centers widths inputs).map
              (fun r => r.sum)) →
        ∀ s, s < inputs.length →
          0 < ((kernelActivationsUnnormalized e centers widths inputs).map
                (fun r => r.sum)).getD s 0 +
              sumFix e centers widths inputs) := by
  have hactslen :
      (kernelActivationsUnnormalized e centers widths inputs).length =
        inputs.length := by
    simp [kernelActivationsUnnormalized]
  refine ⟨?_, ?_, ?_⟩
  · intro h1
    unfold kernelActivationsStatic
    rw [if_pos ⟨rfl, h1⟩]
  · intro hne s b hs hb
    have hstep : kernelActivationsStatic e centers widths inputs true =
        List.zipWith (fun row sv => row.map (fun a => a / sv))
          (kernelActivationsUnnormalized e centers widths inputs)
          (if ((kernelActivationsUnnormalized e centers widths inputs).map
                (fun r => r.sum)).any (fun x => decide (x = 0)) then
            ((kernelActivationsUnnormalized e centers widths inputs).map
                (fun r => r.sum)).map
              (fun x =>
                x + maxCoeffL
                    ((kernelActivationsUnnormalized e centers widths
                        inputs).map (fun r => r.sum)) / 100000)
          else
            (kernelActivationsUnnormalized e centers widths inputs).map
              (fun r => r.sum)) := by
      unfold kernelActivationsStatic
      rw [if_neg (fun hcon => hne hcon.2)]
      simp only [if_true]
    rw [hstep]
    by_cases hz : ((kernelActivationsUnnormalized e centers widths
        inputs).map (fun r => r.sum)).any (fun x => decide (x = 0)) = true
    · rw [if_pos hz,
        getD_zipWith_div _ _ s b (by omega) (by simp),
        getD_map_add _ _ s (by simpa using by omega : s <
          ((kernelActivationsUnnormalized e centers widths inputs).map
            (fun r => r.sum)).length)]
      have hfix : sumFix e centers widths inputs =
          maxCoeffL ((kernelActivationsUnnormalized e centers widths
            inputs).map (fun r => r.sum)) / 100000 := by
        unfold sumFix
        rw [if_pos hz]
      rw [hfix]
    · rw [if_neg hz, getD_zipWith_div _ _ s b (by omega) (by simp)]
      have hfix : sumFix e centers widths inputs = 0 := by
        unfold sumFix
        rw [if_neg hz]
      rw [hfix, add_zero]
  · intro hU hmax s hs
    have := rowsum_denominator_pos
      (kernelActivationsUnnormalized e centers widths inputs) hU hmax s
      (by omega)
    unfold sumFix
    exact this

/-- C4 witness: the policy evaluated on a concrete two-basis-function model
with the abstract exponential instantiated by the constant-one function:
entry (0,0) of the normalized activations equals the unnormalized entry
divided by its stabilized row sum. -/
theorem normalized_activation_policy_witness :
    (([[(1 : ℚ)], [1]] : List (List ℚ)).length =
        ([[(0 : ℚ)], [2]] : List (List ℚ)).length) ∧
      ((kernelActivationsStatic (fun _ => 1) [[(0 : ℚ)], [2]]
            [[(1 : ℚ)], [1]] [[(1 : ℚ)]] true).getD 0 []).getD 0 0 =
        ((kernelActivationsUnnormalized (fun _ => 1) [[(0 : ℚ)], [2]]
              [[(1 : ℚ)], [1]] [[(1 : ℚ)]]).getD 0 []).getD 0 0 /
          (((kernelActivationsUnnormalized (fun _ => 1) [[(0 : ℚ)], [2]]
                [[(1 : ℚ)], [1]] [[(1 : ℚ)]]).map (fun r => r.sum)).getD 0 0 +
            sumFix (fun _ => 1) [[(0 : ℚ)], [2]] [[(1 : ℚ)], [1]]
              [[(1 : ℚ)]]) :=
  ⟨by decide,
    (normalized_activation_policy (fun _ => 1) [[(0 : ℚ)], [2]]
        [[(1 : ℚ)], [1]] [[(1 : ℚ)]] (by decide)).2.1 (by decide) 0 0
      (by decide) (by decide)⟩

/-- Writing back the entry an index already holds leaves the list
unchanged (also past the end, where `set` is the identity). -/
lemma set_getD_self : ∀ (l : List ℚ) (d : Nat), l.set d (l.getD d 0) = l
  | [], _ => rfl
  | _ :: _, 0 => rfl
  | x :: l, d + 1 => congrArg (fun t => x :: t) (set_getD_self l d)

/-- Writing a column back onto itself leaves the matrix unchanged. -/
lemma setColumn_colOf_self : ∀ (M : List (List ℚ)) (d : Nat),
    setColumn M d (colOf M d) = M
  | [], _ => rfl
  | r :: M, d => by
      show (r.set d (r.getD d 0)) :: setColumn M d (colOf M d) = r :: M
      rw [set_getD_self r d, setColumn_colOf_self M d]

/-- Once the "cache cleared" flag of a column-block write is set it stays
set. -/
lemma writeColsGo_true (v : List ℚ) (s B : Nat) :
    ∀ (ds : List Nat) (M : List (List ℚ)),
      (writeColsGo v s B ds (M, true)).2 = true
  | [], _ => rfl
  | d :: ds, M => by
      show (writeColsGo v s B ds (setColumn M d _, true || _)).2 = true
      rw [Bool.true_or]
      exact writeColsGo_true v s B ds _

/-- Unfolding one step of a column-block write. -/
lemma writeColsGo_cons (v : List ℚ) (s B d : Nat) (ds : List Nat)
    (M : List (List ℚ)) (cl : Bool) :
    writeColsGo v s B (d :: ds) (M, cl) =
      writeColsGo v s B ds
        (setColumn M d (sgm v (s + d * B) B),
          cl || decide (¬ colOf M d = sgm v (s + d * B) B)) := rfl

/-- If a column-block write ends with the "cache cleared" flag still clear,
every column comparison succeeded and the matrix is unchanged. -/
lemma writeColsGo_fst_of_false (v : List ℚ) (s B : Nat) :
    ∀ (ds : List Nat) (M : List (List ℚ)) (cl : Bool),
      (writeColsGo v s B ds (M, cl)).2 = false →
      (writeColsGo v s B ds (M, cl)).1 = M
  | [], _, _, _ => rfl
  | d :: ds, M, cl, h => by
      rw [writeColsGo_cons] at h ⊢
      by_cases hc : colOf M d = sgm v (s + d * B) B
      · have hset : setColumn M d (sgm v (s + d * B) B) = M := by
          rw [← hc]; exact setColumn_colOf_self M d
        have hdec : decide (¬ colOf M d = sgm v (s + d * B) B) = false := by
          simp [hc]
        rw [hset, hdec, Bool.or_false] at h ⊢
        exact writeColsGo_fst_of_false v s B ds M cl h
      · exfalso
        have hdec : decide (¬ colOf M d = sgm v (s + d * B) B) = true := by
          simp [hc]
        rw [hdec, Bool.or_true] at h
        rw [writeColsGo_true v s B ds _] at h
        simp at h

/-- A column-block write whose segments all equal the current columns is a
complete no-op: the matrix is returned unchanged and the cache is not
cleared. -/
lemma writeColsGo_all_eq (v : List ℚ) (s B : Nat) :
    ∀ (ds : List Nat) (M : List (List ℚ)),
      (∀ d ∈ ds, sgm v (s + d * B) B = colOf M d) →
      writeColsGo v s B ds (M, false) = (M, false)
  | [], _, _ => rfl
  | d :: ds, M, h => by
      rw [writeColsGo_cons]
      have hc : colOf M d = sgm v (s + d * B) B :=
        (h d (List.mem_cons_self d ds)).symm
      have hset : setColumn M d (sgm v (s + d * B) B) = M := by
        rw [← hc]; exact setColumn_colOf_self M d
      have hdec : decide (¬ colOf M d = sgm v (s + d * B) B) = false := by
        simp [hc]
      rw [hset, hdec, Bool.or_false]
      exact writeColsGo_all_eq v s B ds M
        (fun x hx => h x (List.mem_cons_of_mem d hx))

/-- The length of a column-block flattening. -/
lemma flattenColsFrom_length (M : List (List ℚ)) :
    ∀ (k d0 : Nat), (flattenColsFrom M d0 k).length = k * M.length
  | 0, _ => by simp [flattenColsFrom]
  | k + 1, d0 => by
      show (colOf M d0 ++ flattenColsFrom M (d0 + 1) k).length = _
      rw [List.length_append, flattenColsFrom_length M k (d0 + 1)]
      simp [colOf]
      ring

/-- Every column of a matrix has one entry per row. -/
lemma colOf_length (M : List (List ℚ)) (d : Nat) :
    (colOf M d).length = M.length := by
  simp [colOf]

/-- Reading segment `j` of a column-block flattening (with anything appended
after it) recovers column `d0 + j`. -/
lemma sgm_flattenFrom (M : List (List ℚ)) :
    ∀ (k d0 j : Nat) (rest : List ℚ), j < k →
      sgm (flattenColsFrom M d0 k ++ rest) (j * M.length) M.length =
        colOf M (d0 + j)
  | 0, _, j, _, hj => by omega
  | k + 1, d0, 0, rest, _ => by
      show sgm ((colOf M d0 ++ flattenColsFrom M (d0 + 1) k) ++ rest)
          (0 * M.length) M.length = colOf M (d0 + 0)
      rw [List.append_assoc]
      unfold sgm
      rw [Nat.zero_mul, List.drop_zero, ← colOf_length M d0,
        List.take_left]
      rw [Nat.add_zero]
  | k + 1, d0, j + 1, rest, hj => by
      show sgm ((colOf M d0 ++ flattenColsFrom M (d0 + 1) k) ++ rest)
          ((j + 1) * M.length) M.length = colOf M (d0 + (j + 1))
      rw [List.append_assoc]
      unfold sgm
      have hidx : (j + 1) * M.length = (colOf M d0).length + j * M.length := by
        rw [colOf_length]; ring
      rw [hidx, List.drop_append (j * M.length)]
      have := sgm_flattenFrom M k (d0 + 1) j rest (by omega)
      unfold sgm at this
      rw [this]
      congr 1
      omega

/-- Skipping a whole leading block of a flat vector. -/
lemma sgm_append_skip (a rest : List ℚ) (off len : Nat) :
    sgm (a ++ rest) (a.length + off) len = sgm rest off len := by
  unfold sgm
  rw [List.drop_append off]

/-- For a valid model the widths matrix has the same column count as the
centers matrix. -/
lemma matCols_widths (m : Model) (hv : ModelValid m) :
    matCols m.widths = matCols m.centers := by
  obtain ⟨-, hwl, hw, -, -, -, -⟩ := hv
  cases hwid : m.widths with
  | nil =>
      rw [hwid] at hwl
      have : m.centers = [] := List.length_eq_zero.mp (by simpa using hwl.symm)
      simp [matCols, this]
  | cons r rs =>
      have hr : r ∈ m.widths := by rw [hwid]; exact List.mem_cons_self r rs
      have := hw r hr
      simp [matCols, hwid, this]

/-- For a valid model the slopes matrix has the same column count as the
centers matrix. -/
lemma matCols_slopes (m : Model) (hv : ModelValid m) :
    matCols m.slopes = matCols m.centers := by
  obtain ⟨-, -, -, hsl, hsr, -, -⟩ := hv
  cases hslo : m.slopes with
  | nil =>
      rw [hslo] at hsl
      have : m.centers = [] := List.length_eq_zero.mp (by simpa using hsl.symm)
      simp [matCols, this]
  | cons r rs =>
      have hr : r ∈ m.slopes := by rw [hslo]; exact List.mem_cons_self r rs
      have := hsr r hr
      simp [matCols, hslo, this]

/-- C6: get/set round-trip of the full flat vector is a no-op — feeding the
vector produced by `getParameterVectorAll` (whatever indeterminate values
its unwritten priors-sized tail holds) back into `setParameterVectorAll`
leaves the whole model, flags included, unchanged, clears no activation
cache and logs no error. -/
theorem get_set_roundtrip (arctan : ℚ → ℚ) (m : Model) (hv : ModelValid m)
    (hsa : m.slopes_as_angles = false) (junk : List ℚ)
    (hj : junk.length = m.priors.length) :
    setParameterVectorAll m (getParameterVectorAll arctan m junk) =
      { model := m, clearedCache := false, loggedSizeError := false } := by
  have hmw : matCols m.widths = matCols m.centers := matCols_widths m hv
  have hms : matCols m.slopes = matCols m.centers := matCols_slopes m hv
  obtain ⟨hc, hwl, hw, hsl, hsr, hol, hpl⟩ := hv
  have hsrepr : slopesRepr arctan m = m.slopes := by simp [slopesRepr, hsa]
  have hAlen : (flattenCols m.centers (matCols m.centers)).length =
      matCols m.centers * m.centers.length :=
    flattenColsFrom_length m.centers (matCols m.centers) 0
  have hWlen : (flattenCols m.widths (matCols m.widths)).length =
      matCols m.widths * m.widths.length :=
    flattenColsFrom_length m.widths (matCols m.widths) 0
  have hvshape : getParameterVectorAll arctan m junk =
      flattenCols m.centers (matCols m.centers) ++
        (flattenCols m.widths (matCols m.widths) ++
          (m.offsets ++
            (flattenCols m.slopes (matCols m.slopes) ++ junk))) := by
    unfold getParameterVectorAll getParameterVectorAllWritten
    rw [hsrepr]
    simp [List.append_assoc]
  have hvlen : (getParameterVectorAll arctan m junk).length =
      allValuesSize m := by
    rw [hvshape]
    simp only [List.length_append, flattenCols, flattenColsFrom_length]
    unfold allValuesSize matSize
    rw [hj, hwl, hsl, hol, hpl, hmw, hms]
    ring
  have hcseg : ∀ d ∈ List.range (matCols m.centers),
      sgm (getParameterVectorAll arctan m junk) (0 + d * m.centers.length)
          m.centers.length = colOf m.centers d := by
    intro d hd
    rw [List.mem_range] at hd
    rw [Nat.zero_add, hvshape]
    have h0 := sgm_flattenFrom m.centers (matCols m.centers) 0 d
      (flattenCols m.widths (matCols m.widths) ++
        (m.offsets ++ (flattenCols m.slopes (matCols m.slopes) ++ junk))) hd
    rw [Nat.zero_add] at h0
    exact h0
  have hwseg : ∀ d ∈ List.range (matCols m.centers),
      sgm (getParameterVectorAll arctan m junk)
          (m.centers.length * matCols m.centers + d * m.centers.length)
          m.centers.length = colOf m.widths d := by
    intro d hd
    rw [List.mem_range] at hd
    rw [hvshape]
    have hidx : m.centers.length * matCols m.centers + d * m.centers.length =
        (flattenCols m.centers (matCols m.centers)).length +
          (d * m.widths.length) := by
      rw [hAlen, hwl]; ring
    rw [hidx, sgm_append_skip, ← hwl]
    have h0 := sgm_flattenFrom m.widths (matCols m.widths) 0 d
      (m.offsets ++ (flattenCols m.slopes (matCols m.slopes) ++ junk))
      (by omega)
    rw [Nat.zero_add] at h0
    exact h0
  have hoseg :
      sgm (getParameterVectorAll arctan m junk)
          (m.centers.length * matCols m.centers +
            m.centers.length * matCols m.centers) m.centers.length =
        m.offsets := by
    rw [hvshape]
    have hidx : m.centers.length * matCols m.centers +
        m.centers.length * matCols m.centers =
        (flattenCols m.centers (matCols m.centers)).length +
          ((flattenCols m.widths (matCols m.widths)).length + 0) := by
      rw [hAlen, hWlen, hmw, hwl]; ring
    rw [hidx, sgm_append_skip, sgm_append_skip]
    unfold sgm
    rw [List.drop_zero, ← hol, List.take_left]
  have hsseg : ∀ d ∈ List.range (matCols m.centers),
      sgm (getParameterVectorAll arctan m junk)
          (m.centers.length * matCols m.centers +
            m.centers.length * matCols m.centers + m.centers.length +
            d * m.centers.length) m.centers.length = colOf m.slopes d := by
    intro d hd
    rw [List.mem_range] at hd
    rw [hvshape]
    have hidx : m.centers.length * matCols m.centers +
        m.centers.length * matCols m.centers + m.centers.length +
          d * m.centers.length =
        (flattenCols m.centers (matCols m.centers)).length +
          ((flattenCols m.widths (matCols m.widths)).length +
            (m.offsets.length + d * m.slopes.length)) := by
      rw [hAlen, hWlen, hmw, hwl, hol, hsl]; ring
    rw [hidx, sgm_append_skip, sgm_append_skip, sgm_append_skip, ← hsl]
    have h0 := sgm_flattenFrom m.slopes (matCols m.slopes) 0 d junk (by omega)
    rw [Nat.zero_add] at h0
    exact h0
  unfold setParameterVectorAll
  rw [if_pos hvlen]
  simp only []
  unfold writeCols
  rw [writeColsGo_all_eq _ _ _ _ _ hcseg,
    writeColsGo_all_eq _ _ _ _ _ hwseg,
    writeColsGo_all_eq _ _ _ _ _ hsseg, hoseg]
  rfl

/-- C6 witness: the round-trip evaluated on the concrete three-line model
with an arbitrary junk tail. -/
theorem get_set_roundtrip_witness :
    ModelValid mW ∧ mW.slopes_as_angles = false ∧
      ([(7 : ℚ), 8, 9]).length = mW.priors.length ∧
      setParameterVectorAll mW
          (getParameterVectorAll (fun q => q) mW [(7 : ℚ), 8, 9]) =
        { model := mW, clearedCache := false, loggedSizeError := false } :=
  ⟨by decide, rfl, by decide,
    get_set_roundtrip (fun q => q) mW (by decide) rfl [(7 : ℚ), 8, 9]
      (by decide)⟩

/-- Overwriting index `i` never changes what is read at a different index. -/
lemma getD_set_ne : ∀ (l : List ℚ) (i j : Nat) (w : ℚ), i ≠ j →
    (l.set i w).getD j 0 = l.getD j 0
  | [], _, _, _, _ => rfl
  | _ :: _, 0, 0, _, h => absurd rfl h
  | _ :: _, 0, _ + 1, _, _ => rfl
  | _ :: _, _ + 1, 0, _, _ => rfl
  | _ :: l, i + 1, j + 1, w, h => getD_set_ne l i j w (by omega)

/-- A column write with a long enough replacement keeps the row count. -/
lemma setColumn_length (M : List (List ℚ)) (d : Nat) (x : List ℚ)
    (h : M.length ≤ x.length) : (setColumn M d x).length = M.length := by
  simp [setColumn]
  omega

/-- Writing one column does not disturb the others. -/
lemma colOf_setColumn_ne (d d' : Nat) (hne : d' ≠ d) :
    ∀ (M : List (List ℚ)) (x : List ℚ), M.length ≤ x.length →
      colOf (setColumn M d x) d' = colOf M d'
  | [], _, _ => rfl
  | _ :: _, [], h => by simp at h
  | r :: M, xv :: x, h => by
      show ((r.set d xv).getD d' 0) :: colOf (setColumn M d x) d' =
        (r.getD d' 0) :: colOf M d'
      rw [getD_set_ne r d d' xv (fun he => hne he.symm),
        colOf_setColumn_ne d d' hne M x (by simpa using h)]

/-- Any-scan congruence: `any` only looks at the predicate's values on the list. -/
lemma any_congr_mem : ∀ (l : List Nat) (f g : Nat → Bool),
    (∀ x ∈ l, f x = g x) → l.any f = l.any g
  | [], _, _, _ => rfl
  | x :: l, f, g, h => by
      rw [List.any_cons, List.any_cons, h x (List.mem_cons_self x l),
        any_congr_mem l f g (fun y hy => h y (List.mem_cons_of_mem x hy))]

/-- The "cache cleared" flag of a column-block write over pairwise-distinct
dimensions (whose segments are long enough not to truncate) is exactly
"some current column differs from its incoming segment". -/
lemma writeColsGo_snd_spec (v : List ℚ) (s B : Nat) :
    ∀ (ds : List Nat) (M : List (List ℚ)) (cl : Bool),
      List.Pairwise (fun a b => a ≠ b) ds →
      (∀ d ∈ ds, M.length ≤ (sgm v (s + d * B) B).length) →
      (writeColsGo v s B ds (M, cl)).2 =
        (cl || ds.any (fun d => decide (¬ colOf M d = sgm v (s + d * B) B)))
  | [], _, cl, _, _ => by simp [writeColsGo]
  | d :: ds, M, cl, hp, hL => by
      rw [writeColsGo_cons]
      obtain ⟨hp1, hp2⟩ := List.pairwise_cons.mp hp
      have hlen0 : M.length ≤ (sgm v (s + d * B) B).length :=
        hL d (List.mem_cons_self d ds)
      have hlen' : ∀ d' ∈ ds,
          (setColumn M d (sgm v (s + d * B) B)).length ≤
            (sgm v (s + d' * B) B).length := by
        intro d' hd'
        rw [setColumn_length M d _ hlen0]
        exact hL d' (List.mem_cons_of_mem d hd')
      rw [writeColsGo_snd_spec v s B ds _ _ hp2 hlen']
      have hany : ds.any (fun d' =>
          decide (¬ colOf (setColumn M d (sgm v (s + d * B) B)) d' =
            sgm v (s + d' * B) B)) =
          ds.any (fun d' =>
            decide (¬ colOf M d' = sgm v (s + d' * B) B)) := by
        refine any_congr_mem ds _ _ (fun d' hd' => ?_)
        rw [colOf_setColumn_ne d d' (Ne.symm (hp1 d' hd')) M _ hlen0]
      rw [hany, List.any_cons, Bool.or_assoc]

/-- The cache-carrying state of a `ModelParametersUnified` object with
`caching_` enabled or disabled: the parameters plus the memoized
`(inputs_cached_, kernel_activations_cached_)` pair.  Modelled from the
spec for the parts declared only in the missing `ModelParametersUnified.hpp`
header: the `caching_`/`inputs_cached_`/`kernel_activations_cached_` members
and `clearCache()`, which per the spec invalidates (clears) the memo. -/
structure CState where
  model : Model
  cache : Option (List (List ℚ) × List (List ℚ))
  caching : Bool

/-- The caching member function
`ModelParametersUnified::kernelActivations(inputs, out)`: with caching on, a
memo whose stored inputs have the same shape and elementwise-equal values
(list equality) is returned directly; otherwise the static computation runs
on the current centers/widths/normalization flag and, with caching on, the
memo is replaced by the fresh pair. -/
def kernelActivationsMember (e : ℚ → ℚ) (st : CState)
    (inputs : List (List ℚ)) : List (List ℚ) × CState :=
  match st.caching, st.cache with
  | true, some p =>
      if inputs = p.1 then (p.2, st)
      else
        (kernelActivationsStatic e st.model.centers st.model.widths inputs
            st.model.normalized_basis_functions,
          { st with
            cache := some (inputs,
              kernelActivationsStatic e st.model.centers st.model.widths
                inputs st.model.normalized_basis_functions) })
  | true, none =>
      (kernelActivationsStatic e st.model.centers st.model.widths inputs
          st.model.normalized_basis_functions,
        { st with
          cache := some (inputs,
            kernelActivationsStatic e st.model.centers st.model.widths
              inputs st.model.normalized_basis_functions) })
  | false, _ =>
      (kernelActivationsStatic e st.model.centers st.model.widths inputs
          st.model.normalized_basis_functions, st)

/-- The action of `setParameterVectorAll` on the cached state: the parameter write
as in the source, with the memo cleared exactly when some `clearCache()`
call fired (modelled from the spec: `clearCache` empties the memo). -/
def setParameterVectorAllC (st : CState) (v : List ℚ) : CState :=
  { model := (setParameterVectorAll st.model v).model
    cache :=
      if (setParameterVectorAll st.model v).clearedCache then none
      else st.cache
    caching := st.caching }

/-- One client operation on a cached model: a full-vector write or an
activation query. -/
inductive Op where
  | setAll (v : List ℚ)
  | query (inputs : List (List ℚ))

/-- Execute one operation. -/
def stepOp (e : ℚ → ℚ) (st : CState) : Op → CState
  | Op.setAll v => setParameterVectorAllC st v
  | Op.query inputs => (kernelActivationsMember e st inputs).2

/-- Execute a sequence of operations. -/
def runOps (e : ℚ → ℚ) (st : CState) : List Op → CState
  | [] => st
  | op :: ops => runOps e (stepOp e st op) ops

/-- Fresh state of a model with caching enabled and an empty memo. -/
def initCState (m : Model) : CState :=
  { model := m, cache := none, caching := true }

/-- The cache invariant: whatever the memo holds is what the static
computation would produce from the current centers, widths and
normalization flag. -/
def CacheConsistent (e : ℚ → ℚ) (st : CState) : Prop :=
  ∀ ic ac, st.cache = some (ic, ac) →
    ac = kernelActivationsStatic e st.model.centers st.model.widths ic
        st.model.normalized_basis_functions

/-- Under the invariant, a query answers exactly the direct (uncached)
computation. -/
lemma member_fst_of_consistent (e : ℚ → ℚ) (st : CState)
    (inputs : List (List ℚ)) (h : CacheConsistent e st) :
    (kernelActivationsMember e st inputs).1 =
      kernelActivationsStatic e st.model.centers st.model.widths inputs
        st.model.normalized_basis_functions := by
  obtain ⟨mo, cache, caching⟩ := st
  cases caching with
  | false => rfl
  | true =>
      cases cache with
      | none => rfl
      | some p =>
          dsimp only [kernelActivationsMember]
          by_cases he : inputs = p.1
          · rw [if_pos he]
            rw [he]
            exact h p.1 p.2 rfl
          · rw [if_neg he]

/-- A query preserves the invariant. -/
lemma member_snd_consistent (e : ℚ → ℚ) (st : CState)
    (inputs : List (List ℚ)) (h : CacheConsistent e st) :
    CacheConsistent e (kernelActivationsMember e st inputs).2 := by
  obtain ⟨mo, cache, caching⟩ := st
  cases caching with
  | false => exact h
  | true =>
      cases cache with
      | none =>
          intro ic ac hc
          dsimp only [kernelActivationsMember] at hc ⊢
          simp only [Option.some.injEq, Prod.mk.injEq] at hc
          obtain ⟨h1, h2⟩ := hc
          rw [← h1, ← h2]
      | some p =>
          by_cases he : inputs = p.1
          · intro ic ac hc
            dsimp only [kernelActivationsMember] at hc ⊢
            rw [if_pos he] at hc ⊢
            exact h ic ac hc
          · intro ic ac hc
            dsimp only [kernelActivationsMember] at hc ⊢
            rw [if_neg he] at hc ⊢
            simp only [Option.some.injEq, Prod.mk.injEq] at hc
            obtain ⟨h1, h2⟩ := hc
            rw [← h1, ← h2]

/-- A full-vector write that did not clear the cache left the centers and
widths matrices unchanged (the per-column comparisons all succeeded, or the
write was a rejected wrong-size vector). -/
lemma setAll_not_cleared (m : Model) (v : List ℚ)
    (h : (setParameterVectorAll m v).clearedCache = false) :
    (setParameterVectorAll m v).model.centers = m.centers ∧
      (setParameterVectorAll m v).model.widths = m.widths := by
  by_cases hsz : v.length = allValuesSize m
  · unfold setParameterVectorAll at h ⊢
    rw [if_pos hsz] at h ⊢
    dsimp only [] at h ⊢
    rw [Bool.or_eq_false_iff] at h
    exact ⟨writeColsGo_fst_of_false _ _ _ _ _ _ h.1,
      writeColsGo_fst_of_false _ _ _ _ _ _ h.2⟩
  · unfold setParameterVectorAll at h ⊢
    rw [if_neg hsz]
    exact ⟨rfl, rfl⟩

/-- A full-vector write never touches the normalization flag. -/
lemma setAll_norm_flag (m : Model) (v : List ℚ) :
    (setParameterVectorAll m v).model.normalized_basis_functions =
      m.normalized_basis_functions := by
  unfold setParameterVectorAll
  by_cases hsz : v.length = allValuesSize m
  · rw [if_pos hsz]
  · rw [if_neg hsz]

/-- A full-vector write preserves the cache invariant: either it clears the
memo, or it left centers, widths and the normalization flag unchanged. -/
lemma setC_consistent (e : ℚ → ℚ) (st : CState) (v : List ℚ)
    (h : CacheConsistent e st) :
    CacheConsistent e (setParameterVectorAllC st v) := by
  intro ic ac hc
  dsimp only [setParameterVectorAllC] at hc ⊢
  by_cases hcl : (setParameterVectorAll st.model v).clearedCache = true
  · rw [if_pos hcl] at hc
    exact absurd hc (by simp)
  · have hcl' : (setParameterVectorAll st.model v).clearedCache = false := by
      revert hcl
      cases (setParameterVectorAll st.model v).clearedCache <;> simp
    rw [if_neg hcl] at hc
    obtain ⟨h1, h2⟩ := setAll_not_cleared st.model v hcl'
    rw [h1, h2, setAll_norm_flag]
    exact h ic ac hc

/-- The cache invariant is preserved along any operation sequence. -/
lemma runOps_consistent (e : ℚ → ℚ) :
    ∀ (ops : List Op) (st : CState), CacheConsistent e st →
      CacheConsistent e (runOps e st ops)
  | [], _, h => h
  | op :: ops, st, h => by
      show CacheConsistent e (runOps e (stepOp e st op) ops)
      refine runOps_consistent e ops _ ?_
      cases op with
      | setAll v => exact setC_consistent e st v h
      | query inputs => exact member_snd_consistent e st inputs h

/-- The fresh state with an empty memo satisfies the invariant. -/
lemma initCState_consistent (e : ℚ → ℚ) (m : Model) :
    CacheConsistent e (initCState m) := by
  intro ic ac hc
  simp [initCState] at hc

/-- C3: caching is transparent — starting from any valid model with caching
enabled, after any interleaved sequence of full-vector writes and activation
queries, a `kernelActivations` call returns exactly what the direct
(uncached) computation from the current centers and widths would produce;
and a right-sized `setParameterVectorAll` clears the cache precisely when
some incoming centers or widths column differs elementwise from the stored
one (so never for offsets/slopes-only changes). -/
theorem cache_transparent (e : ℚ → ℚ) (m : Model) (hv : ModelValid m)
    (ops : List Op) (inputs : List (List ℚ)) (v : List ℚ)
    (hlen : v.length = allValuesSize m) :
    ((kernelActivationsMember e (runOps e (initCState m) ops) inputs).1 =
        kernelActivationsStatic e
          (runOps e (initCState m) ops).model.centers
          (runOps e (initCState m) ops).model.widths inputs
          (runOps e (initCState m) ops).model.normalized_basis_functions) ∧
      ((setParameterVectorAll m v).clearedCache = true ↔
        ∃ d, d < matCols m.centers ∧
          (colOf m.centers d ≠ sgm v (d * m.centers.length) m.centers.length ∨
            colOf m.widths d ≠
              sgm v (m.centers.length * matCols m.centers +
                  d * m.centers.length) m.centers.length)) := by
  have hmw : matCols m.widths = matCols m.centers := matCols_widths m hv
  have hms : matCols m.slopes = matCols m.centers := matCols_slopes m hv
  obtain ⟨hc, hwl, hw, hsl, hsr, hol, hpl⟩ := hv
  constructor
  · exact member_fst_of_consistent e _ inputs
      (runOps_consistent e ops _ (initCState_consistent e m))
  · have hall : allValuesSize m =
        m.centers.length * matCols m.centers +
          m.centers.length * matCols m.centers + m.centers.length +
          m.centers.length * matCols m.centers + m.centers.length := by
      unfold allValuesSize matSize
      rw [hwl, hol, hsl, hpl, hmw, hms]
    have hseg : ∀ off, off + m.centers.length ≤ v.length →
        m.centers.length ≤ (sgm v off m.centers.length).length := by
      intro off hoff
      unfold sgm
      rw [List.length_take, List.length_drop]
      omega
    have hdb : ∀ d, d < matCols m.centers →
        d * m.centers.length + m.centers.length ≤
          m.centers.length * matCols m.centers := by
      intro d hd
      have h1 : (d + 1) * m.centers.length ≤
          matCols m.centers * m.centers.length :=
        Nat.mul_le_mul_right _ (by omega)
      calc d * m.centers.length + m.centers.length
          = (d + 1) * m.centers.length := by ring
        _ ≤ matCols m.centers * m.centers.length := h1
        _ = m.centers.length * matCols m.centers := Nat.mul_comm _ _
    have hlenC : ∀ d ∈ List.range (matCols m.centers),
        m.centers.length ≤
          (sgm v (0 + d * m.centers.length) m.centers.length).length := by
      intro d hd
      rw [List.mem_range] at hd
      refine hseg _ ?_
      have := hdb d hd
      omega
    have hlenW : ∀ d ∈ List.range (matCols m.centers),
        m.widths.length ≤
          (sgm v (m.centers.length * matCols m.centers +
              d * m.centers.length) m.centers.length).length := by
      intro d hd
      rw [List.mem_range] at hd
      rw [hwl]
      refine hseg _ ?_
      have := hdb d hd
      omega
    have hnd : List.Pairwise (fun a b => a ≠ b)
        (List.range (matCols m.centers)) := List.nodup_range _
    unfold setParameterVectorAll
    rw [if_pos hlen]
    dsimp only []
    unfold writeCols
    rw [writeColsGo_snd_spec v 0 m.centers.length _ m.centers false hnd hlenC,
      writeColsGo_snd_spec v (m.centers.length * matCols m.centers)
        m.centers.length _ m.widths false hnd hlenW,
      Bool.false_or, Bool.false_or]
    have hany0 : (List.range (matCols m.centers)).any (fun d =>
        decide (¬ colOf m.centers d =
          sgm v (0 + d * m.centers.length) m.centers.length)) =
        (List.range (matCols m.centers)).any (fun d =>
          decide (¬ colOf m.centers d =
            sgm v (d * m.centers.length) m.centers.length)) := by
      refine any_congr_mem _ _ _ (fun d _ => ?_)
      rw [Nat.zero_add]
    rw [hany0, Bool.or_eq_true, List.any_eq_true, List.any_eq_true]
    constructor
    · rintro (⟨d, hd, hchk⟩ | ⟨d, hd, hchk⟩)
      · exact ⟨d, List.mem_range.mp hd, Or.inl (by simpa using hchk)⟩
      · exact ⟨d, List.mem_range.mp hd, Or.inr (by simpa using hchk)⟩
    · rintro ⟨d, hd, hchk | hchk⟩
      · exact Or.inl ⟨d, List.mem_range.mpr hd, by simpa using hchk⟩
      · exact Or.inr ⟨d, List.mem_range.mpr hd, by simpa using hchk⟩

/-- C3 witness: on the fresh concrete three-line model a query returns the
direct computation. -/
theorem cache_transparent_witness :
    ModelValid mW ∧
      (List.replicate 15 (0 : ℚ)).length = allValuesSize mW ∧
      (kernelActivationsMember (fun q => q)
            (runOps (fun q => q) (initCState mW) []) [[40]]).1 =
        kernelActivationsStatic (fun q => q)
          (runOps (fun q => q) (initCState mW) []).model.centers
          (runOps (fun q => q) (initCState mW) []).model.widths [[40]]
          (runOps (fun q => q)
              (initCState mW) []).model.normalized_basis_functions :=
  ⟨by decide, by decide,
    (cache_transparent (fun q => q) mW (by decide) [] [[40]]
        (List.replicate 15 (0 : ℚ)) (by decide)).1⟩
